import Mathlib

/-!
Verification development for the lexer_c repository: a shallow embedding of
the character classifiers, span matchers, operator/delimiter trie and the
lexer engine, together with theorems settling the frozen claims about the
specification. Source text is modelled as a list of characters; cursor
positions are natural-number offsets into that list, exactly as in the
Python source (indices into a string).
-/

namespace LexerC

/-! ## Character classifiers (matcher.py lines 3-22) -/

/-- The whitespace character set WHITESPACE = " \t\r\n\f\v". -/
def isWhitespaceChar (c : Char) : Bool :=
  c = ' ' || c = '\t' || c = '\r' || c = '\n' || c = '\x0c' || c = '\x0b'

def is_alpha (c : Char) : Bool :=
  ('a' ≤ c && c ≤ 'z') || ('A' ≤ c && c ≤ 'Z')

def is_digit (c : Char) : Bool :=
  '0' ≤ c && c ≤ '9'

def is_hex (c : Char) : Bool :=
  is_digit c || ('a' ≤ c && c ≤ 'f') || ('A' ≤ c && c ≤ 'F')

def is_oct (c : Char) : Bool :=
  '0' ≤ c && c ≤ '7'

def is_id_start (c : Char) : Bool :=
  is_alpha c || c = '_'

def is_id_continue (c : Char) : Bool :=
  is_id_start c || is_digit c

/-- Base-36 character: alphanumeric (used inline in lexer.py line 225). -/
def is_base36_char (c : Char) : Bool :=
  is_digit c || is_alpha c

/-! ## Span matchers (matcher.py lines 24-150)

Each Python matcher takes `(text, pos)` and inspects only `text[pos:]`
(moving an index forward); we embed the scan as structural recursion on the
suffix `text.drop pos` and wrap it with the `(text, pos)` signature of the
source. -/

/-- match_while: length of the maximal prefix of the suffix satisfying the
predicate (the i-incrementing loop of matcher.py lines 24-28). -/
def matchWhileGo (p : Char → Bool) : List Char → Nat
  | [] => 0
  | c :: cs => if p c then 1 + matchWhileGo p cs else 0

def match_while (text : List Char) (pos : Nat) (p : Char → Bool) : Nat :=
  matchWhileGo p (text.drop pos)

def match_whitespace (text : List Char) (pos : Nat) : Nat :=
  match_while text pos isWhitespaceChar

/-- match_identifier: identifier-start then maximal identifier-continue run. -/
def matchIdentifierGo : List Char → Nat
  | [] => 0
  | c :: cs => if is_id_start c then 1 + matchWhileGo is_id_continue cs else 0

def match_identifier (text : List Char) (pos : Nat) : Nat :=
  matchIdentifierGo (text.drop pos)

/-- _match_exponent: [eE][+-]?[0-9]+ (matcher.py lines 42-54). -/
def matchExponentGo : List Char → Nat
  | [] => 0
  | c :: rest =>
    if c = 'e' ∨ c = 'E' then
      let sgn : Nat := match rest with
        | d :: _ => if d = '+' ∨ d = '-' then 1 else 0
        | [] => 0
      let digits := matchWhileGo is_digit (rest.drop sgn)
      if 0 < digits then 1 + sgn + digits else 0
    else 0

/-- match_float (matcher.py lines 56-92): best of the three decimal float
shapes, 0 when none applies. -/
def matchFloatGo (l : List Char) : Nat :=
  match l with
  | [] => 0
  | _ :: _ =>
    let d := matchWhileGo is_digit l
    let b1 :=
      if 0 < d ∧ l.get? d = some '.' then
        let k := d + 1 + matchWhileGo is_digit (l.drop (d + 1))
        k + matchExponentGo (l.drop k)
      else 0
    let b2 :=
      match l with
      | '.' :: rest =>
        if (match rest with | c :: _ => is_digit c | [] => false) then
          let j := 1 + matchWhileGo is_digit rest
          j + matchExponentGo (l.drop j)
        else 0
      | _ => 0
    let b3 :=
      if 0 < d then
        let e := matchExponentGo (l.drop d)
        if 0 < e then d + e else 0
      else 0
    max (max (max 0 b1) b2) b3

def match_float (text : List Char) (pos : Nat) : Nat :=
  matchFloatGo (text.drop pos)

/-- match_hex_int (matcher.py lines 94-103): 0[xX][0-9a-fA-F]+. -/
def matchHexGo : List Char → Nat
  | c0 :: cx :: rest =>
    if c0 = '0' ∧ (cx = 'x' ∨ cx = 'X') then
      let digits := matchWhileGo is_hex rest
      if 0 < digits then 2 + digits else 0
    else 0
  | _ => 0

def match_hex_int (text : List Char) (pos : Nat) : Nat :=
  matchHexGo (text.drop pos)

/-- match_oct_int (matcher.py lines 105-113): 0[0-7]+; lone 0 not matched. -/
def matchOctGo : List Char → Nat
  | c0 :: rest =>
    if c0 = '0' then
      match rest with
      | d :: _ => if is_oct d then 1 + matchWhileGo is_oct rest else 0
      | [] => 0
    else 0
  | [] => 0

def match_oct_int (text : List Char) (pos : Nat) : Nat :=
  matchOctGo (text.drop pos)

/-- match_dec_int (matcher.py lines 115-124): 0 or [1-9][0-9]*. -/
def matchDecGo : List Char → Nat
  | c :: cs =>
    if is_digit c then
      if c = '0' then 1 else 1 + matchWhileGo is_digit cs
    else 0
  | [] => 0

def match_dec_int (text : List Char) (pos : Nat) : Nat :=
  matchDecGo (text.drop pos)

/-- Inner scan of match_string_or_char after the opening quote
(matcher.py lines 137-147). Returns (consumed, closed): `consumed` is the
index delta of the Python loop at exit (which can overrun the end of the
suffix by one when a backslash is the last character, since the loop does
i += 2), and `closed` marks arrival at the matching unescaped quote. -/
def scanRest (quote : Char) : List Char → Nat × Bool
  | [] => (0, false)
  | c :: cs =>
    if c = '\\' then
      match cs with
      | [] => (2, false)
      | _ :: cs2 =>
        let r := scanRest quote cs2
        (2 + r.1, r.2)
    else if c = quote then (1, true)
    else if c = '\n' ∧ quote = '"' then (0, false)
    else
      let r := scanRest quote cs
      (1 + r.1, r.2)

/-- match_string_or_char (matcher.py lines 126-150): returns
(length, is_string, is_error). -/
def match_string_or_char (text : List Char) (pos : Nat) : Nat × Bool × Bool :=
  match text.drop pos with
  | q :: rest =>
    if q = '\'' ∨ q = '"' then
      let r := scanRest q rest
      if r.2 then (1 + r.1, q = '"', false)
      else (max 1 (1 + r.1), q = '"', true)
    else (0, false, false)
  | [] => (0, false, false)

/-- Modelled from the spec: match_base36_bare is imported by lexer.py from
matcher.py but absent from the source under src/; spec section 4.2 defines
it as the maximal run of alphanumeric characters containing at least one
alphabetic character and at least one digit, returning that run length and
0 otherwise. -/
def match_base36_bare (text : List Char) (pos : Nat) : Nat :=
  let l := text.drop pos
  let k := matchWhileGo is_base36_char l
  let run := l.take k
  if 0 < k ∧ run.any is_alpha ∧ run.any is_digit then k else 0

/-! ## Bounds of the span matchers -/

theorem matchWhileGo_le (p : Char → Bool) (l : List Char) :
    matchWhileGo p l ≤ l.length := by
  induction l with
  | nil => simp [matchWhileGo]
  | cons c cs ih =>
    simp only [matchWhileGo, List.length_cons]
    split <;> omega

theorem matchExponentGo_le (l : List Char) : matchExponentGo l ≤ l.length := by
  cases l with
  | nil => simp [matchExponentGo]
  | cons c rest =>
    simp only [matchExponentGo]
    split
    · cases rest with
      | nil =>
        simp only [List.drop_nil]
        have := matchWhileGo_le is_digit ([] : List Char)
        split <;> simp_all <;> omega
      | cons d rest2 =>
        simp only
        split
        · have := matchWhileGo_le is_digit ((d :: rest2).drop 1)
          simp only [List.drop_succ_cons, List.drop_zero, List.length_drop] at this ⊢
          split <;> simp_all <;> omega
        · have := matchWhileGo_le is_digit ((d :: rest2).drop 0)
          simp only [List.drop_zero] at this
          split <;> simp_all <;> omega
    · omega

theorem matchFloatGo_le (l : List Char) : matchFloatGo l ≤ l.length := by
  cases l with
  | nil => simp [matchFloatGo]
  | cons c0 cs0 =>
    have hd := matchWhileGo_le is_digit (c0 :: cs0)
    have hb1 :
        (if 0 < matchWhileGo is_digit (c0 :: cs0) ∧
            (c0 :: cs0).get? (matchWhileGo is_digit (c0 :: cs0)) = some '.' then
          matchWhileGo is_digit (c0 :: cs0) + 1 +
            matchWhileGo is_digit ((c0 :: cs0).drop (matchWhileGo is_digit (c0 :: cs0) + 1)) +
            matchExponentGo ((c0 :: cs0).drop
              (matchWhileGo is_digit (c0 :: cs0) + 1 +
                matchWhileGo is_digit ((c0 :: cs0).drop (matchWhileGo is_digit (c0 :: cs0) + 1))))
        else 0) ≤ (c0 :: cs0).length := by
      split
      · rename_i h
        have hdot : (c0 :: cs0).get? (matchWhileGo is_digit (c0 :: cs0)) = some '.' := h.2
        have hlt : matchWhileGo is_digit (c0 :: cs0) < (c0 :: cs0).length := by
          by_contra hge
          rw [List.get?_eq_none.mpr (by omega)] at hdot
          exact Option.noConfusion hdot
        have h2 := matchWhileGo_le is_digit
          ((c0 :: cs0).drop (matchWhileGo is_digit (c0 :: cs0) + 1))
        rw [List.length_drop] at h2
        have h3 := matchExponentGo_le ((c0 :: cs0).drop
          (matchWhileGo is_digit (c0 :: cs0) + 1 +
            matchWhileGo is_digit ((c0 :: cs0).drop (matchWhileGo is_digit (c0 :: cs0) + 1))))
        rw [List.length_drop] at h3
        omega
      · omega
    have hb2 :
        (match c0 :: cs0 with
          | '.' :: rest =>
            if (match rest with | c :: _ => is_digit c | [] => false) then
              1 + matchWhileGo is_digit rest +
                matchExponentGo ((c0 :: cs0).drop (1 + matchWhileGo is_digit rest))
            else 0
          | _ => 0) ≤ (c0 :: cs0).length := by
      split
      · rename_i rest heq
        obtain ⟨hc0, hcs0⟩ : c0 = '.' ∧ cs0 = rest := by
          injection heq with h1 h2
          exact ⟨h1, h2⟩
        subst hcs0
        subst hc0
        split
        · have h2 := matchWhileGo_le is_digit cs0
          have h3 := matchExponentGo_le (('.' :: cs0).drop (1 + matchWhileGo is_digit cs0))
          rw [List.length_drop] at h3
          simp only [List.length_cons] at h3 ⊢
          refine le_trans (Nat.add_le_add_left h3 (1 + matchWhileGo is_digit cs0)) ?_
          omega
        · simp
      · simp
    have hb3 :
        (if 0 < matchWhileGo is_digit (c0 :: cs0) then
          if 0 < matchExponentGo ((c0 :: cs0).drop (matchWhileGo is_digit (c0 :: cs0))) then
            matchWhileGo is_digit (c0 :: cs0) +
              matchExponentGo ((c0 :: cs0).drop (matchWhileGo is_digit (c0 :: cs0)))
          else 0
        else 0) ≤ (c0 :: cs0).length := by
      split
      · have h3 := matchExponentGo_le ((c0 :: cs0).drop (matchWhileGo is_digit (c0 :: cs0)))
        rw [List.length_drop] at h3
        split <;> omega
      · omega
    show max (max (max 0 _) _) _ ≤ _
    exact max_le (max_le (max_le (by omega) hb1) hb2) hb3

theorem matchHexGo_le (l : List Char) : matchHexGo l ≤ l.length := by
  match l with
  | [] => simp [matchHexGo]
  | [c] => simp [matchHexGo]
  | c0 :: cx :: rest =>
    simp only [matchHexGo, List.length_cons]
    have := matchWhileGo_le is_hex rest
    split
    · split <;> omega
    · omega

theorem matchOctGo_le (l : List Char) : matchOctGo l ≤ l.length := by
  match l with
  | [] => simp [matchOctGo]
  | c0 :: rest =>
    simp only [matchOctGo, List.length_cons]
    have := matchWhileGo_le is_oct rest
    split
    · cases rest with
      | nil => simp
      | cons d r2 =>
        simp only [List.length_cons] at this ⊢
        split <;> omega
    · omega

theorem matchDecGo_le (l : List Char) : matchDecGo l ≤ l.length := by
  match l with
  | [] => simp [matchDecGo]
  | c :: cs =>
    simp only [matchDecGo, List.length_cons]
    have := matchWhileGo_le is_digit cs
    split
    · split <;> omega
    · omega

theorem matchIdentifierGo_le (l : List Char) : matchIdentifierGo l ≤ l.length := by
  match l with
  | [] => simp [matchIdentifierGo]
  | c :: cs =>
    simp only [matchIdentifierGo, List.length_cons]
    have := matchWhileGo_le is_id_continue cs
    split <;> omega

/-- Helper induction for the string scan, strong on the suffix length since
the backslash branch drops two characters at a time. -/
theorem scanRest_le_aux (quote : Char) :
    ∀ (n : Nat) (l : List Char), l.length ≤ n →
      (scanRest quote l).1 ≤ l.length + 1 ∧
      ((scanRest quote l).2 = true → (scanRest quote l).1 ≤ l.length) := by
  intro n
  induction n with
  | zero =>
    intro l hl
    have : l = [] := List.eq_nil_of_length_eq_zero (by omega)
    subst this
    simp [scanRest]
  | succ n ih =>
    intro l hl
    match l with
    | [] => simp [scanRest]
    | c :: cs =>
      rw [scanRest.eq_def]
      by_cases hbs : c = '\\'
      · match cs with
        | [] =>
          simp [hbs]
        | d :: cs2 =>
          have h := ih cs2 (by simp at hl ⊢; omega)
          simp only [if_pos hbs, List.length_cons]
          exact ⟨by omega, by intro hc; have := h.2 hc; omega⟩
      · by_cases hq : c = quote
        · simp only [if_neg hbs, if_pos hq, List.length_cons]
          exact ⟨by omega, by intro _; omega⟩
        · by_cases hnl : c = '\n' ∧ quote = '"'
          · simp only [if_neg hbs, if_neg hq, if_pos hnl, List.length_cons]
            exact ⟨by omega, by simp⟩
          · have h := ih cs (by simp at hl ⊢; omega)
            simp only [if_neg hbs, if_neg hq, if_neg hnl, List.length_cons]
            exact ⟨by omega, by intro hc; have := h.2 hc; omega⟩

/-- The inner string scan can overrun the end of the suffix by at most one
(only via the backslash branch that skips two characters at once). -/
theorem scanRest_le (quote : Char) (l : List Char) :
    (scanRest quote l).1 ≤ l.length + 1 :=
  (scanRest_le_aux quote l.length l (Nat.le_refl _)).1

/-- When the scan reaches a closing quote it has stayed within the suffix. -/
theorem scanRest_closed_le (quote : Char) (l : List Char) :
    (scanRest quote l).2 = true → (scanRest quote l).1 ≤ l.length :=
  (scanRest_le_aux quote l.length l (Nat.le_refl _)).2

/-! ## Trie / longest-match symbol table (matcher.py lines 152-184)

The Python node holds a dict of children and an optional tag; we model the
dict as a function from characters to optional child nodes (lookup and
`setdefault`-style update). -/

inductive TrieNode where
  | mk (tag : Option String) (children : Char → Option TrieNode)

def TrieNode.tag : TrieNode → Option String
  | .mk t _ => t

def TrieNode.children : TrieNode → Char → Option TrieNode
  | .mk _ ch => ch

def TrieNode.empty : TrieNode := .mk none (fun _ => none)

/-- Trie.add walking one character of the inserted string at a time
(matcher.py lines 162-166): follow or create the child for each character,
then set the tag of the final node (overwriting any previous tag). -/
def TrieNode.addGo (tg : String) : List Char → TrieNode → TrieNode
  | [], n => .mk (some tg) n.children
  | c :: cs, n =>
    .mk n.tag (fun c' =>
      if c' = c then some (TrieNode.addGo tg cs ((n.children c).getD TrieNode.empty))
      else n.children c')

structure Trie where
  root : TrieNode

def Trie.emptyTrie : Trie := ⟨TrieNode.empty⟩

def Trie.add (t : Trie) (s : List Char) (tg : String) : Trie :=
  ⟨t.root.addGo tg s⟩

/-- The walk of match_longest (matcher.py lines 168-184): follow children
while they exist, remembering the depth and tag of the deepest node with a
tag. `i` is the number of characters consumed so far. -/
def matchLongestGo : TrieNode → List Char → Nat → Option (Nat × String) → Option (Nat × String)
  | _, [], _, best => best
  | nd, c :: cs, i, best =>
    match nd.children c with
    | none => best
    | some sub =>
      match sub.tag with
      | some tg => matchLongestGo sub cs (i + 1) (some (i + 1, tg))
      | none => matchLongestGo sub cs (i + 1) best

def Trie.match_longest (t : Trie) (text : List Char) (pos : Nat) :
    Option (List Char) × Option String :=
  match matchLongestGo t.root (text.drop pos) 0 none with
  | none => (none, none)
  | some (len, tg) => (some ((text.drop pos).take len), some tg)

/-! ### Trie semantics: walking a stored string, and the tag found there -/

def walk : TrieNode → List Char → Option TrieNode
  | nd, [] => some nd
  | nd, c :: cs =>
    match nd.children c with
    | none => none
    | some sub => walk sub cs

/-- The tag stored in the trie at string s, if the path exists. -/
def tagAt (nd : TrieNode) (s : List Char) : Option String :=
  (walk nd s).bind TrieNode.tag

@[simp] theorem TrieNode.tag_mk (t : Option String) (ch : Char → Option TrieNode) :
    (TrieNode.mk t ch).tag = t := rfl

@[simp] theorem TrieNode.children_mk (t : Option String) (ch : Char → Option TrieNode) :
    (TrieNode.mk t ch).children = ch := rfl

theorem tagAt_nil (nd : TrieNode) : tagAt nd [] = nd.tag := rfl

theorem tagAt_cons (nd : TrieNode) (c : Char) (cs : List Char) :
    tagAt nd (c :: cs) =
      (match nd.children c with
        | none => none
        | some sub => tagAt sub cs) := by
  cases h : nd.children c with
  | none => simp [tagAt, walk, h]
  | some sub => simp [tagAt, walk, h]

theorem tagAt_empty (s : List Char) : tagAt TrieNode.empty s = none := by
  cases s with
  | nil => rfl
  | cons c cs => rfl

/-- Inserting s sets the tag at s and leaves every other tag unchanged. -/
theorem tagAt_addGo (tg : String) (s : List Char) :
    ∀ (nd : TrieNode) (s' : List Char),
      tagAt (TrieNode.addGo tg s nd) s' = if s' = s then some tg else tagAt nd s' := by
  induction s with
  | nil =>
    intro nd s'
    cases s' with
    | nil => simp [TrieNode.addGo, tagAt_nil]
    | cons c' cs' =>
      rw [if_neg (by simp)]
      rw [tagAt_cons, tagAt_cons]
      rfl
  | cons c cs ih =>
    intro nd s'
    cases s' with
    | nil =>
      rw [if_neg (by simp)]
      rfl
    | cons c' cs' =>
      rw [tagAt_cons, tagAt_cons]
      have hch : (TrieNode.addGo tg (c :: cs) nd).children c' =
          if c' = c then some (TrieNode.addGo tg cs ((nd.children c).getD TrieNode.empty))
          else nd.children c' := rfl
      rw [hch]
      by_cases hc : c' = c
      · subst hc
        rw [if_pos rfl]
        show tagAt (TrieNode.addGo tg cs ((nd.children c').getD TrieNode.empty)) cs' = _
        rw [ih]
        by_cases hcs : cs' = cs
        · subst hcs
          rw [if_pos rfl, if_pos rfl]
        · rw [if_neg hcs, if_neg (by simp [hcs])]
          cases hch2 : nd.children c' with
          | none => simp [tagAt_empty]
          | some sub => simp
      · rw [if_neg hc, if_neg (by simp [hc])]

/-! ## Token model (service/token.py)

The module service/token.py is imported by lexer.py and main.py but is not
present under src/; the token record, category enumeration and the fixed
keyword/operator/delimiter tables are therefore modelled from the spec. -/

/-- Modelled from the spec: the closed token-category enumeration of the
glossary (IDENTIFIER, KEYWORD, OPERATOR, DELIMITER, FLOAT, DEC-INTEGER,
OCT-INTEGER, HEX-INTEGER, BASE36-NUMBER, STRING, CHAR, ERROR, EOF), with
the constructor names used by lexer.py. -/
inductive TokenType where
  | ID | RW | OP | DL
  | FLOAT | NUM10 | NUM8 | NUM16 | NUM36
  | CS_STR | CS_CHAR
  | ERROR | EOF
deriving DecidableEq

/-- Modelled from the spec: the immutable token record
(category, lexeme, line, column) of spec section 3. -/
structure Token where
  type : TokenType
  lexeme : List Char
  line : Nat
  col : Nat
deriving DecidableEq

/-- Modelled from the spec: the fixed keyword table (missing token.py);
the C-like reserved words plus the base-36 declaration keyword int36 and
the return keyword, both named by the spec. -/
def KEYWORDS : List (List Char) :=
  (["auto", "break", "case", "char", "const", "continue", "default", "do",
    "double", "else", "enum", "extern", "float", "for", "goto", "if",
    "int", "int36", "long", "register", "return", "short", "signed",
    "sizeof", "static", "struct", "switch", "typedef", "union", "unsigned",
    "void", "volatile", "while"].map String.toList)

/-- Modelled from the spec: the fixed operator table (missing token.py);
the operator lexemes enumerated in spec section 4.4a. -/
def OPERATORS : List (List Char) :=
  (["=", "+", "-", "*", "/", "%", "&", "|", "^",
    "==", "!=", "<=", ">=", "<", ">", "&&", "||", "?", ":"].map String.toList)

/-- Modelled from the spec: the fixed delimiter table (missing token.py);
parentheses, brackets, braces, comma and semicolon per spec sections 4.4a
and 4.4b. -/
def DELIMITERS : List (List Char) :=
  (["(", ")", "[", "]", "\x7b", "\x7d", ",", ";"].map String.toList)

/-! ## Lexer engine (service/lexer.py) -/

/-- The operator/delimiter trie built at lexer construction
(lexer.py lines 19-23). -/
def buildTrie : Trie :=
  DELIMITERS.foldl (fun t d => t.add d "DL")
    (OPERATORS.foldl (fun t o => t.add o "OP") Trie.emptyTrie)

/-- Lexer state (lexer.py lines 11-29). The extra ghost field `consumed`
records every span passed to _advance, in order, so that the coverage
invariant can be stated; it influences nothing. -/
structure Lexer where
  text : List Char
  pos : Nat
  line : Nat
  col : Nat
  trie : Trie
  in_decl : Bool
  expect_ident : Bool
  prev_token : Option Token
  decl_is_int36 : Bool
  consumed : List (List Char)

def mkLexer (text : List Char) : Lexer :=
  { text := text, pos := 0, line := 1, col := 1, trie := buildTrie,
    in_decl := false, expect_ident := false, prev_token := none,
    decl_is_int36 := false, consumed := [] }

/-- _advance (lexer.py lines 32-39): consume the next k characters
(clamped at end-of-input exactly as Python slicing clamps), updating
line/column per character and pos by the consumed length. -/
def Lexer.advance (s : Lexer) (k : Nat) : Lexer :=
  let span := (s.text.drop s.pos).take k
  let lc := span.foldl
    (fun (p : Nat × Nat) ch => if ch = '\n' then (p.1 + 1, 1) else (p.1, p.2 + 1))
    (s.line, s.col)
  { s with pos := s.pos + span.length, line := lc.1, col := lc.2,
           consumed := s.consumed ++ [span] }

/-- _skip_ws (lexer.py lines 46-51). -/
def Lexer.skip_ws (s : Lexer) : Lexer × Bool :=
  let k := match_whitespace s.text s.pos
  if 0 < k then (s.advance k, true) else (s, false)

/-- Backward scan of _at_line_start (lexer.py lines 54-58); the argument is
the number of characters before the cursor still to examine. -/
def atLineStartGo (text : List Char) : Nat → Bool
  | 0 => true
  | i + 1 =>
    match text.get? i with
    | some c => if c = ' ' ∨ c = '\t' then atLineStartGo text i else c = '\n'
    | none => true

def Lexer.at_line_start (s : Lexer) : Bool :=
  atLineStartGo s.text s.pos

/-- Length of the preprocessor line from the cursor (the j-scan of
lexer.py lines 63-70), treating a backslash-newline pair as continuation
and stopping before an unescaped newline. -/
def ppLineGo : List Char → Nat
  | [] => 0
  | [c] => if c = '\n' then 0 else 1
  | c :: d :: rest =>
    if c = '\\' ∧ d = '\n' then 2 + ppLineGo rest
    else if c = '\n' then 0
    else 1 + ppLineGo (d :: rest)

/-- _skip_pp_line (lexer.py lines 61-73). -/
def Lexer.skip_pp_line (s : Lexer) : Lexer × Bool :=
  if s.text.get? s.pos = some '#' ∧ s.at_line_start = true then
    (s.advance (ppLineGo (s.text.drop s.pos)), true)
  else (s, false)

/-- Index of the first occurrence of the two-character pattern a,b. -/
def findSub2 (a b : Char) : List Char → Option Nat
  | [] => none
  | [_] => none
  | c :: d :: rest =>
    if c = a ∧ d = b then some 0
    else (findSub2 a b (d :: rest)).map (· + 1)

/-- Index of the first occurrence of a character. -/
def findChar (a : Char) : List Char → Option Nat
  | [] => none
  | c :: rest => if c = a then some 0 else (findChar a rest).map (· + 1)

/-- _skip_comments (lexer.py lines 76-95): inl = ERROR token for an
unterminated block comment, inr b = skipped-something flag. -/
def Lexer.skip_comments (s : Lexer) : (Token ⊕ Bool) × Lexer :=
  if (s.text.drop s.pos).take 2 = ['/', '*'] then
    match findSub2 '*' '/' (s.text.drop (s.pos + 2)) with
    | none =>
      let lex := s.text.drop s.pos
      let tok : Token := ⟨TokenType.ERROR, lex, s.line, s.col⟩
      (Sum.inl tok, s.advance lex.length)
    | some e => (Sum.inr true, s.advance (e + 4))
  else if (s.text.drop s.pos).take 2 = ['/', '/'] then
    match findChar '\n' (s.text.drop s.pos) with
    | none => (Sum.inr true, s.advance (s.text.length - s.pos))
    | some j => (Sum.inr true, s.advance j)
  else (Sum.inr false, s)

/-- _try_string_or_char (lexer.py lines 98-107). -/
def Lexer.try_string_or_char (s : Lexer) : Option (Token × Lexer) :=
  let r := match_string_or_char s.text s.pos
  if r.1 = 0 then none
  else
    let ttype := if r.2.1 then TokenType.CS_STR else TokenType.CS_CHAR
    let lex := (s.text.drop s.pos).take r.1
    let tok : Token := ⟨if r.2.2 then TokenType.ERROR else ttype, lex, s.line, s.col⟩
    let s1 := s.advance r.1
    some (tok, { s1 with prev_token := some tok })

/-- The delimiters after which an expression is expected
(lexer.py line 115). -/
def exprDLs : List (List Char) :=
  (["(", ",", "\x7b", "[", ";"].map String.toList)

/-- The operators after which an expression is expected
(lexer.py lines 118-121). -/
def exprOPs : List (List Char) :=
  (["=", "+", "-", "*", "/", "%", "&", "|", "^",
    "==", "!=", "<=", ">=", "<", ">", "&&", "||", "?", ":"].map String.toList)

/-- _in_expr_context (lexer.py lines 110-129). -/
def Lexer.in_expr_context (s : Lexer) : Bool :=
  match s.prev_token with
  | none => true
  | some t =>
    if t.type = TokenType.DL ∧ t.lexeme ∈ exprDLs then true
    else if t.type = TokenType.OP ∧ t.lexeme ∈ exprOPs then true
    else if t.type = TokenType.RW ∧ t.lexeme = "return".toList then true
    else if s.in_decl = true ∧ t.type = TokenType.OP ∧ t.lexeme = "=".toList then true
    else false

/-- The priority key of candidate disambiguation (lexer.py lines 200-208):
Python compares the pair (length, priority) lexicographically with
priority in 1..3, encoded here as length * 4 + priority. -/
def pri (e : Nat × Option TokenType) : Nat :=
  match e.2 with
  | some tt =>
    if tt = TokenType.FLOAT ∨ tt = TokenType.NUM16 ∨ tt = TokenType.NUM8 ∨
        tt = TokenType.NUM10 ∨ tt = TokenType.NUM36 then e.1 * 4 + 3
    else if tt = TokenType.OP ∨ tt = TokenType.DL then e.1 * 4 + 2
    else e.1 * 4 + 1
  | none => e.1 * 4 + 1

/-- Python max(candidates, key=pri): keep the first candidate whose key is
maximal (a later candidate replaces the current one only when strictly
greater). -/
def pickMax (c : Nat × Option TokenType) (rest : List (Nat × Option TokenType)) :
    Nat × Option TokenType :=
  rest.foldl (fun acc x => if pri acc < pri x then x else acc) c

/-- Candidate generation at the cursor (lexer.py lines 156-189), in the
order the source appends them; None marks a not-yet-resolved ID/RW. -/
def Lexer.candidates (s : Lexer) : List (Nat × Option TokenType) :=
  (if 0 < match_float s.text s.pos then
    [(match_float s.text s.pos, some TokenType.FLOAT)] else []) ++
  (if 0 < match_base36_bare s.text s.pos then
    [(match_base36_bare s.text s.pos, some TokenType.NUM36)] else []) ++
  (if 0 < match_hex_int s.text s.pos then
    [(match_hex_int s.text s.pos, some TokenType.NUM16)] else []) ++
  (if 0 < match_oct_int s.text s.pos then
    [(match_oct_int s.text s.pos, some TokenType.NUM8)] else []) ++
  (if 0 < match_dec_int s.text s.pos then
    [(match_dec_int s.text s.pos, some TokenType.NUM10)] else []) ++
  (match s.trie.match_longest s.text s.pos with
   | (some lex, some tg) =>
     [(lex.length, some (if tg = "OP" then TokenType.OP else TokenType.DL))]
   | _ => []) ++
  (if 0 < match_identifier s.text s.pos then
    [(match_identifier s.text s.pos, none)] else [])

/-- Keyword override and base-36 shape reclassification
(lexer.py lines 213-228). -/
def classifyKw (s : Lexer) (lex : List Char) (tt0 : Option TokenType) : TokenType :=
  if lex ∈ KEYWORDS then TokenType.RW
  else
    let tt := tt0.getD TokenType.ID
    if tt = TokenType.ID then
      if lex.any is_alpha ∧ lex.any is_digit ∧ lex.all is_base36_char then
        if s.expect_ident = false ∧ s.in_expr_context = true then TokenType.NUM36
        else TokenType.ID
      else TokenType.ID
    else tt

/-- The base-36-declaration override (lexer.py lines 230-235): inside an
active int36 declaration, not expecting a name, in expression position,
plain integer categories become NUM36. -/
def declOverride (s : Lexer) (tt : TokenType) : TokenType :=
  if s.in_decl = true ∧ s.decl_is_int36 = true ∧ s.expect_ident = false ∧
      s.in_expr_context = true then
    if tt = TokenType.NUM10 ∨ tt = TokenType.NUM8 ∨ tt = TokenType.NUM16 then
      TokenType.NUM36
    else tt
  else tt

/-- Declaration-context transitions after emitting a token
(lexer.py lines 241-253). -/
def updateDecl (s : Lexer) (tok : Token) : Lexer :=
  if tok.type = TokenType.RW ∧ tok.lexeme = "int36".toList then
    { s with in_decl := true, decl_is_int36 := true, expect_ident := true }
  else if tok.type = TokenType.DL ∧ tok.lexeme = ";".toList then
    { s with in_decl := false, decl_is_int36 := false, expect_ident := false }
  else if s.in_decl = true then
    let s1 := if s.expect_ident = true ∧ tok.type = TokenType.ID then
      { s with expect_ident := false } else s
    if tok.type = TokenType.DL ∧ tok.lexeme = ",".toList then
      { s1 with expect_ident := true } else s1
  else s

/-- The candidate-selection tail of next_token (lexer.py lines 156-256),
reached after noise skipping, EOF check and the string/char fast path. -/
def Lexer.core (s : Lexer) : Token × Lexer :=
  match s.candidates with
  | [] =>
    let bad := (s.text.drop s.pos).take 1
    let tok : Token := ⟨TokenType.ERROR, bad, s.line, s.col⟩
    let s1 := s.advance 1
    (tok, { s1 with prev_token := some tok })
  | c :: rest =>
    let best := pickMax c rest
    let lex := (s.text.drop s.pos).take best.1
    let tt := declOverride s (classifyKw s lex best.2)
    let tok : Token := ⟨tt, lex, s.line, s.col⟩
    let s1 := s.advance best.1
    let s2 := updateDecl s1 tok
    (tok, { s2 with prev_token := some tok })

/-- The noise-skip loop of next_token (lexer.py lines 134-145), with fuel:
each progressing iteration advances the cursor, so fuel n - pos + 1 always
suffices. inl = immediate ERROR return for an unterminated block comment. -/
def noiseFuel : Nat → Lexer → (Token × Lexer) ⊕ Lexer
  | 0, s => Sum.inr s
  | f + 1, s =>
    let ws := s.skip_ws
    let sc := ws.1.skip_comments
    match sc.1 with
    | Sum.inl tok => Sum.inl (tok, sc.2)
    | Sum.inr p2 =>
      let pp := sc.2.skip_pp_line
      if ws.2 || p2 || pp.2 then noiseFuel f pp.1 else Sum.inr pp.1

/-- next_token (lexer.py lines 132-256). -/
def Lexer.next_token (s : Lexer) : Token × Lexer :=
  match noiseFuel (s.text.length - s.pos + 1) s with
  | Sum.inl r => r
  | Sum.inr s1 =>
    if s1.text.length ≤ s1.pos then (⟨TokenType.EOF, [], s1.line, s1.col⟩, s1)
    else
      match s1.try_string_or_char with
      | some r => r
      | none => s1.core

/-- tokenize (lexer.py lines 258-265) with fuel; next_token advances the
cursor before EOF, so fuel n - pos + 1 always suffices (proved below). -/
def tokenizeFuel : Nat → Lexer → Option (List Token)
  | 0, _ => none
  | f + 1, s =>
    let r := s.next_token
    if r.1.type = TokenType.EOF then some []
    else (tokenizeFuel f r.2).map (fun ts => r.1 :: ts)

def Lexer.tokenize (s : Lexer) : Option (List Token) :=
  tokenizeFuel (s.text.length - s.pos + 1) s

/-! ## Longest-match characterization of the trie walk -/

/-- The depth and tag of the deepest tagged node reachable from nd along
the given character list (the semantic value computed by match_longest). -/
def maxTagged : TrieNode → List Char → Option (Nat × String)
  | _, [] => none
  | nd, c :: cs =>
    match nd.children c with
    | none => none
    | some sub =>
      match maxTagged sub cs with
      | some (j, tg) => some (j + 1, tg)
      | none => sub.tag.map (fun tg => (1, tg))

theorem matchLongestGo_eq (l : List Char) :
    ∀ (nd : TrieNode) (i : Nat) (best : Option (Nat × String)),
      matchLongestGo nd l i best =
        (match maxTagged nd l with
          | none => best
          | some (j, tg) => some (i + j, tg)) := by
  induction l with
  | nil => intro nd i best; rfl
  | cons c cs ih =>
    intro nd i best
    show (match nd.children c with
      | none => best
      | some sub =>
        match sub.tag with
        | some tg => matchLongestGo sub cs (i + 1) (some (i + 1, tg))
        | none => matchLongestGo sub cs (i + 1) best) = _
    cases hch : nd.children c with
    | none => simp [maxTagged, hch]
    | some sub =>
      dsimp only
      cases htag : sub.tag with
      | some tg0 =>
        dsimp only
        rw [ih]
        simp only [maxTagged, hch, htag]
        cases hm : maxTagged sub cs with
        | none => simp
        | some p =>
          obtain ⟨j, tg⟩ := p
          have : i + (j + 1) = i + 1 + j := by omega
          simp [this]
      | none =>
        dsimp only
        rw [ih]
        simp only [maxTagged, hch, htag]
        cases hm : maxTagged sub cs with
        | none => simp
        | some p =>
          obtain ⟨j, tg⟩ := p
          have : i + (j + 1) = i + 1 + j := by omega
          simp [this]

/-- When no tagged node is reachable, every nonempty traversable prefix is
untagged. -/
theorem maxTagged_none (l : List Char) :
    ∀ (nd : TrieNode), maxTagged nd l = none →
      ∀ j, 1 ≤ j → j ≤ l.length → tagAt nd (l.take j) = none := by
  induction l with
  | nil =>
    intro nd _ j h1 h2
    simp at h2
    omega
  | cons c cs ih =>
    intro nd hm j h1 h2
    rw [show maxTagged nd (c :: cs) =
      (match nd.children c with
        | none => none
        | some sub =>
          match maxTagged sub cs with
          | some (j, tg) => some (j + 1, tg)
          | none => sub.tag.map (fun tg => (1, tg))) from rfl] at hm
    obtain ⟨j', rfl⟩ : ∃ j', j = j' + 1 := ⟨j - 1, by omega⟩
    rw [List.take_succ_cons, tagAt_cons]
    cases hch : nd.children c with
    | none => rfl
    | some sub =>
      rw [hch] at hm
      dsimp only at hm
      have hsub : maxTagged sub cs = none := by
        cases hms : maxTagged sub cs with
        | none => rfl
        | some p =>
          obtain ⟨j0, tg0⟩ := p
          rw [hms] at hm
          dsimp only at hm
          exact absurd hm (by simp)
      rw [hsub] at hm
      dsimp only at hm
      have htag : sub.tag = none := by
        cases hts : sub.tag with
        | none => rfl
        | some tg0 =>
          rw [hts] at hm
          exact absurd hm (by simp)
      show tagAt sub (cs.take j') = none
      cases Nat.eq_zero_or_pos j' with
      | inl hz =>
        subst hz
        rw [List.take_zero, tagAt_nil]
        exact htag
      | inr hpos =>
        exact ih sub hsub j' hpos (by simp at h2; omega)

/-- The maxTagged result is the deepest tagged traversable prefix: it is
tagged with the returned tag, and every strictly longer prefix within the
list is untagged. -/
theorem maxTagged_some (l : List Char) :
    ∀ (nd : TrieNode) (j : Nat) (tg : String), maxTagged nd l = some (j, tg) →
      1 ≤ j ∧ j ≤ l.length ∧ tagAt nd (l.take j) = some tg ∧
      ∀ j', j < j' → j' ≤ l.length → tagAt nd (l.take j') = none := by
  induction l with
  | nil =>
    intro nd j tg hm
    exact absurd hm (by simp [maxTagged])
  | cons c cs ih =>
    intro nd j tg hm
    rw [show maxTagged nd (c :: cs) =
      (match nd.children c with
        | none => none
        | some sub =>
          match maxTagged sub cs with
          | some (j, tg) => some (j + 1, tg)
          | none => sub.tag.map (fun tg => (1, tg))) from rfl] at hm
    cases hch : nd.children c with
    | none =>
      rw [hch] at hm
      exact absurd hm (by simp)
    | some sub =>
      rw [hch] at hm
      dsimp only at hm
      cases hms : maxTagged sub cs with
      | some p =>
        obtain ⟨j0, tg0⟩ := p
        rw [hms] at hm
        dsimp only at hm
        simp only [Option.some.injEq, Prod.mk.injEq] at hm
        obtain ⟨hj, htg⟩ := hm
        subst hj
        subst htg
        obtain ⟨h1, h2, h3, h4⟩ := ih sub j0 tg0 hms
        refine ⟨by omega, by simp only [List.length_cons]; omega, ?_, ?_⟩
        · rw [List.take_succ_cons, tagAt_cons, hch]
          exact h3
        · intro j' hlt hle
          obtain ⟨j'', rfl⟩ : ∃ j'', j' = j'' + 1 := ⟨j' - 1, by omega⟩
          rw [List.take_succ_cons, tagAt_cons, hch]
          exact h4 j'' (by omega) (by simp only [List.length_cons] at hle; omega)
      | none =>
        rw [hms] at hm
        dsimp only at hm
        cases hts : sub.tag with
        | none =>
          rw [hts] at hm
          exact absurd hm (by simp)
        | some tg0 =>
          rw [hts] at hm
          simp only [Option.map_some', Option.some.injEq, Prod.mk.injEq] at hm
          obtain ⟨hj, htg⟩ := hm
          subst htg
          refine ⟨by omega, by simp only [List.length_cons]; omega, ?_, ?_⟩
          · rw [← hj, List.take_succ_cons, List.take_zero, tagAt_cons, hch]
            exact hts
          · intro j' hlt hle
            obtain ⟨j'', rfl⟩ : ∃ j'', j' = j'' + 1 := ⟨j' - 1, by omega⟩
            rw [List.take_succ_cons, tagAt_cons, hch]
            exact maxTagged_none cs sub hms j'' (by omega)
              (by simp only [List.length_cons] at hle; omega)

/-- Trie.match_longest in terms of maxTagged. -/
theorem match_longest_eq (t : Trie) (text : List Char) (pos : Nat) :
    t.match_longest text pos =
      (match maxTagged t.root (text.drop pos) with
        | none => (none, none)
        | some (j, tg) => (some ((text.drop pos).take j), some tg)) := by
  show (match matchLongestGo t.root (text.drop pos) 0 none with
    | none => ((none : Option (List Char)), (none : Option String))
    | some (len, tg) => (some ((text.drop pos).take len), some tg)) = _
  rw [matchLongestGo_eq]
  cases hm : maxTagged t.root (text.drop pos) with
  | none => rfl
  | some p =>
    obtain ⟨j, tg⟩ := p
    simp

/-- Building a trie from a list of add calls. -/
def buildFrom (adds : List (List Char × String)) : Trie :=
  adds.foldl (fun t p => t.add p.1 p.2) Trie.emptyTrie

theorem tagAt_foldl_add (adds : List (List Char × String)) :
    ∀ (t : Trie) (s : List Char),
      tagAt (adds.foldl (fun t p => t.add p.1 p.2) t).root s =
        adds.foldl (fun acc p => if p.1 = s then some p.2 else acc) (tagAt t.root s) := by
  induction adds with
  | nil => intro t s; rfl
  | cons p ps ih =>
    intro t s
    simp only [List.foldl_cons]
    rw [ih]
    have : tagAt (t.add p.1 p.2).root s = if p.1 = s then some p.2 else tagAt t.root s := by
      show tagAt (TrieNode.addGo p.2 p.1 t.root) s = _
      rw [tagAt_addGo]
      by_cases h : s = p.1
      · rw [if_pos h, if_pos h.symm]
      · rw [if_neg h, if_neg (fun hh => h hh.symm)]
    rw [this]

/-- The tag found in a trie built by a sequence of add calls is the tag of
the last add of exactly that string. -/
theorem tagAt_buildFrom (adds : List (List Char × String)) (s : List Char) :
    tagAt (buildFrom adds).root s =
      adds.foldl (fun acc p => if p.1 = s then some p.2 else acc) none := by
  rw [buildFrom, tagAt_foldl_add]
  have h : tagAt Trie.emptyTrie.root s = none := tagAt_empty s
  rw [h]

/-! ## Cursor and coverage facts about the engine -/

/-- The coverage invariant of claim C1: the spans recorded by _advance
concatenate exactly to the consumed prefix of the text, and the cursor
stays within the text. -/
def coverageInv (s : Lexer) : Prop :=
  s.consumed.flatten = s.text.take s.pos ∧ s.pos ≤ s.text.length

theorem advance_text (s : Lexer) (k : Nat) : (s.advance k).text = s.text := rfl

theorem advance_consumed (s : Lexer) (k : Nat) :
    (s.advance k).consumed = s.consumed ++ [(s.text.drop s.pos).take k] := rfl

theorem advance_pos (s : Lexer) (k : Nat) :
    (s.advance k).pos = s.pos + min k (s.text.length - s.pos) := by
  show s.pos + ((s.text.drop s.pos).take k).length = _
  simp

theorem advance_pos_le (s : Lexer) (k : Nat) : s.pos ≤ (s.advance k).pos := by
  rw [advance_pos]; omega

theorem advance_pos_lt (s : Lexer) (k : Nat) (h1 : s.pos < s.text.length)
    (h2 : 1 ≤ k) : s.pos < (s.advance k).pos := by
  rw [advance_pos]; omega

theorem advance_inv (s : Lexer) (k : Nat) (h : coverageInv s) :
    coverageInv (s.advance k) := by
  obtain ⟨h1, h2⟩ := h
  constructor
  · rw [advance_consumed]
    show _ = (s.advance k).text.take (s.advance k).pos
    rw [advance_text, advance_pos]
    rw [List.flatten_append]
    have hsp : (s.text.drop s.pos).take (min k (s.text.length - s.pos)) =
        (s.text.drop s.pos).take k := by
      apply List.take_eq_take.mpr
      simp only [List.length_drop]
      omega
    rw [List.take_add, h1]
    simp [hsp]
  · show (s.advance k).pos ≤ (s.advance k).text.length
    rw [advance_text, advance_pos]
    omega

theorem match_whitespace_le (text : List Char) (pos : Nat) :
    match_whitespace text pos ≤ text.length - pos := by
  have := matchWhileGo_le isWhitespaceChar (text.drop pos)
  simpa using this

theorem skip_ws_spec (s : Lexer) :
    s.skip_ws.1.text = s.text ∧ s.pos ≤ s.skip_ws.1.pos ∧
    (coverageInv s → coverageInv s.skip_ws.1) ∧
    (s.skip_ws.2 = true → s.pos < s.skip_ws.1.pos) ∧
    (s.skip_ws.2 = false → s.skip_ws.1 = s) := by
  unfold Lexer.skip_ws
  dsimp only
  split
  · rename_i hk
    have hle := match_whitespace_le s.text s.pos
    refine ⟨advance_text s _, advance_pos_le s _, advance_inv s _, ?_, ?_⟩
    · intro _
      exact advance_pos_lt s _ (by omega) (by omega)
    · intro h
      exact absurd h (by simp)
  · exact ⟨rfl, le_refl _, fun h => h, fun h => absurd h (by simp), fun _ => rfl⟩

theorem take_two_bound (l : List Char) (a b : Char) (h : l.take 2 = [a, b]) :
    2 ≤ l.length := by
  have := congrArg List.length h
  simp at this
  omega

theorem findChar_head_ne (a c : Char) (rest : List Char) (h : c ≠ a) :
    ∀ j, findChar a (c :: rest) = some j → 1 ≤ j := by
  intro j hj
  unfold findChar at hj
  rw [if_neg h] at hj
  cases hf : findChar a rest with
  | none => rw [hf] at hj; exact absurd hj (by simp)
  | some j0 =>
    rw [hf] at hj
    simp at hj
    omega

theorem skip_comments_spec (s : Lexer) :
    s.skip_comments.2.text = s.text ∧ s.pos ≤ s.skip_comments.2.pos ∧
    (coverageInv s → coverageInv s.skip_comments.2) ∧
    ((s.skip_comments.1 = Sum.inr false) ∨ s.pos < s.skip_comments.2.pos) ∧
    (s.skip_comments.1 = Sum.inr false → s.skip_comments.2 = s) := by
  unfold Lexer.skip_comments
  split
  · rename_i hbc
    have hlen : 2 ≤ (s.text.drop s.pos).length := take_two_bound _ _ _ hbc
    have hpos : s.pos < s.text.length := by
      rw [List.length_drop] at hlen
      omega
    split
    · refine ⟨advance_text s _, advance_pos_le s _, advance_inv s _, ?_, ?_⟩
      · right
        refine advance_pos_lt s _ hpos ?_
        rw [List.length_drop]
        omega
      · intro h
        exact absurd h (by simp)
    · refine ⟨advance_text s _, advance_pos_le s _, advance_inv s _, ?_, ?_⟩
      · right
        exact advance_pos_lt s _ hpos (by omega)
      · intro h
        exact absurd h (by simp)
  · split
    · rename_i hlc
      have hlen : 2 ≤ (s.text.drop s.pos).length := take_two_bound _ _ _ hlc
      have hpos : s.pos < s.text.length := by
        rw [List.length_drop] at hlen
        omega
      have hhead : ∃ rest, s.text.drop s.pos = '/' :: rest := by
        cases hd : s.text.drop s.pos with
        | nil => rw [hd] at hlc; exact absurd hlc (by simp)
        | cons c rest =>
          rw [hd] at hlc
          cases rest with
          | nil => exact absurd hlc (by simp)
          | cons d r2 =>
            simp at hlc
            exact ⟨d :: r2, by rw [hlc.1]⟩
      split
      · refine ⟨advance_text s _, advance_pos_le s _, advance_inv s _, ?_, ?_⟩
        · right
          exact advance_pos_lt s _ hpos (by omega)
        · intro h
          exact absurd h (by simp)
      · rename_i j hj
        obtain ⟨rest, hrest⟩ := hhead
        have hj1 : 1 ≤ j := by
          apply findChar_head_ne '\n' '/' rest (by decide) j
          rw [← hrest]
          exact hj
        refine ⟨advance_text s _, advance_pos_le s _, advance_inv s _, ?_, ?_⟩
        · right
          exact advance_pos_lt s _ hpos hj1
        · intro h
          exact absurd h (by simp)
    · exact ⟨rfl, le_refl _, fun h => h, Or.inl rfl, fun _ => rfl⟩

theorem ppLineGo_pos (c : Char) (rest : List Char) (h : c ≠ '\n') :
    1 ≤ ppLineGo (c :: rest) := by
  cases rest with
  | nil =>
    unfold ppLineGo
    rw [if_neg h]
  | cons d r2 =>
    unfold ppLineGo
    by_cases h1 : c = '\\' ∧ d = '\n'
    · rw [if_pos h1]
      omega
    · rw [if_neg h1, if_neg h]
      omega

theorem skip_pp_line_spec (s : Lexer) :
    s.skip_pp_line.1.text = s.text ∧ s.pos ≤ s.skip_pp_line.1.pos ∧
    (coverageInv s → coverageInv s.skip_pp_line.1) ∧
    (s.skip_pp_line.2 = true → s.pos < s.skip_pp_line.1.pos) ∧
    (s.skip_pp_line.2 = false → s.skip_pp_line.1 = s) := by
  unfold Lexer.skip_pp_line
  split
  · rename_i hcond
    have hpos : s.pos < s.text.length := by
      by_contra hge
      rw [List.get?_eq_none.mpr (by omega)] at hcond
      exact Option.noConfusion hcond.1
    have hdrop : ∃ rest, s.text.drop s.pos = '#' :: rest := by
      obtain ⟨hh, hget⟩ := List.get?_eq_some.mp hcond.1
      refine ⟨s.text.drop (s.pos + 1), ?_⟩
      rw [List.drop_eq_get_cons hh, hget]
    obtain ⟨rest, hrest⟩ := hdrop
    have hpp : 1 ≤ ppLineGo (s.text.drop s.pos) := by
      rw [hrest]
      exact ppLineGo_pos '#' rest (by decide)
    refine ⟨advance_text s _, advance_pos_le s _, advance_inv s _, ?_, ?_⟩
    · intro _
      exact advance_pos_lt s _ hpos hpp
    · intro h
      exact absurd h (by simp)
  · exact ⟨rfl, le_refl _, fun h => h, fun h => absurd h (by simp), fun _ => rfl⟩

theorem coverageInv_of_fields (a b : Lexer) (ht : a.text = b.text)
    (hp : a.pos = b.pos) (hc : a.consumed = b.consumed) (h : coverageInv b) :
    coverageInv a := by
  unfold coverageInv at *
  rw [ht, hp, hc]
  exact h

theorem match_string_pos (text : List Char) (pos : Nat)
    (h : (match_string_or_char text pos).1 ≠ 0) : pos < text.length := by
  by_contra hge
  have hdrop : text.drop pos = [] := List.drop_eq_nil_of_le (by omega)
  unfold match_string_or_char at h
  rw [hdrop] at h
  exact h rfl

theorem try_string_spec (s : Lexer) (r : Token × Lexer)
    (h : s.try_string_or_char = some r) :
    r.2.text = s.text ∧ s.pos < r.2.pos ∧ (coverageInv s → coverageInv r.2) := by
  unfold Lexer.try_string_or_char at h
  dsimp only at h
  split at h
  · exact absurd h (by simp)
  · rename_i hne
    have hpos : s.pos < s.text.length := match_string_pos s.text s.pos hne
    have hr := Option.some.inj h
    subst hr
    refine ⟨rfl, ?_, ?_⟩
    · exact advance_pos_lt s (match_string_or_char s.text s.pos).1 hpos (by omega)
    · intro hinv
      exact advance_inv s (match_string_or_char s.text s.pos).1 hinv

theorem match_longest_some_len (t : Trie) (text : List Char) (pos : Nat)
    (lex : List Char) (otg : Option String)
    (h : t.match_longest text pos = (some lex, otg)) : 0 < lex.length := by
  rw [match_longest_eq] at h
  cases hm : maxTagged t.root (text.drop pos) with
  | none =>
    rw [hm] at h
    exact absurd h (by simp)
  | some p =>
    obtain ⟨j, tg⟩ := p
    rw [hm] at h
    dsimp only at h
    obtain ⟨hj1, hj2, _, _⟩ := maxTagged_some _ _ _ _ hm
    have hlex : lex = (text.drop pos).take j := by
      simp only [Prod.mk.injEq, Option.some.injEq] at h
      exact h.1.symm
    rw [hlex, List.length_take, List.length_drop]
    rw [List.length_drop] at hj2
    omega

theorem mem_ite_singleton {e x : Nat × Option TokenType} {c : Prop} [Decidable c]
    (h : e ∈ (if c then [x] else [])) : c ∧ e = x := by
  split at h
  · exact ⟨by assumption, by simpa using h⟩
  · simp at h

theorem candidates_pos (s : Lexer) : ∀ e ∈ s.candidates, 0 < e.1 := by
  intro e he
  unfold Lexer.candidates at he
  rcases List.mem_append.mp he with h1 | h1
  · rcases List.mem_append.mp h1 with h2 | h2
    · rcases List.mem_append.mp h2 with h3 | h3
      · rcases List.mem_append.mp h3 with h4 | h4
        · rcases List.mem_append.mp h4 with h5 | h5
          · rcases List.mem_append.mp h5 with h6 | h6
            · obtain ⟨hc, rfl⟩ := mem_ite_singleton h6
              exact hc
            · obtain ⟨hc, rfl⟩ := mem_ite_singleton h6
              exact hc
          · obtain ⟨hc, rfl⟩ := mem_ite_singleton h5
            exact hc
        · obtain ⟨hc, rfl⟩ := mem_ite_singleton h4
          exact hc
      · obtain ⟨hc, rfl⟩ := mem_ite_singleton h3
        exact hc
    · rcases hml : s.trie.match_longest s.text s.pos with ⟨a, b⟩
      rw [hml] at h2
      cases a with
      | none => cases b <;> simp at h2
      | some lex =>
        cases b with
        | none => simp at h2
        | some tg =>
          dsimp only at h2
          rcases List.mem_singleton.mp h2 with rfl
          exact match_longest_some_len s.trie s.text s.pos lex (some tg) hml
  · obtain ⟨hc, rfl⟩ := mem_ite_singleton h1
    exact hc

theorem foldl_pick_mem (rest : List (Nat × Option TokenType)) :
    ∀ acc, rest.foldl (fun acc x => if pri acc < pri x then x else acc) acc ∈
      acc :: rest := by
  induction rest with
  | nil => intro acc; exact List.mem_singleton.mpr rfl
  | cons x xs ih =>
    intro acc
    rw [List.foldl_cons]
    rcases List.mem_cons.mp (ih (if pri acc < pri x then x else acc)) with h | h
    · rw [h]
      split
      · simp
      · simp
    · exact List.mem_cons_of_mem _ (List.mem_cons_of_mem _ h)

theorem pickMax_mem (c : Nat × Option TokenType) (rest : List (Nat × Option TokenType)) :
    pickMax c rest ∈ c :: rest :=
  foldl_pick_mem rest c

theorem updateDecl_fields (s : Lexer) (tok : Token) :
    (updateDecl s tok).text = s.text ∧ (updateDecl s tok).pos = s.pos ∧
    (updateDecl s tok).consumed = s.consumed := by
  unfold updateDecl
  split
  · exact ⟨rfl, rfl, rfl⟩
  · split
    · exact ⟨rfl, rfl, rfl⟩
    · split
      · dsimp only
        split
        · split <;> exact ⟨rfl, rfl, rfl⟩
        · split <;> exact ⟨rfl, rfl, rfl⟩
      · exact ⟨rfl, rfl, rfl⟩

theorem core_spec (s : Lexer) (h : s.pos < s.text.length) :
    s.core.2.text = s.text ∧ s.pos < s.core.2.pos ∧
    (coverageInv s → coverageInv s.core.2) := by
  unfold Lexer.core
  cases hc : s.candidates with
  | nil =>
    dsimp only
    refine ⟨advance_text s 1, advance_pos_lt s 1 h (le_refl 1), ?_⟩
    intro hinv
    exact advance_inv s 1 hinv
  | cons c rest =>
    dsimp only
    have hmem : pickMax c rest ∈ s.candidates := by
      rw [hc]
      exact pickMax_mem c rest
    have hpos : 0 < (pickMax c rest).1 := candidates_pos s _ hmem
    obtain ⟨hut, hup, huc⟩ := updateDecl_fields (s.advance (pickMax c rest).1)
      ⟨declOverride s (classifyKw s ((s.text.drop s.pos).take (pickMax c rest).1)
          (pickMax c rest).2),
        (s.text.drop s.pos).take (pickMax c rest).1, s.line, s.col⟩
    refine ⟨?_, ?_, ?_⟩
    · exact hut.trans (advance_text s _)
    · show s.pos < (updateDecl _ _).pos
      rw [hup]
      exact advance_pos_lt s _ h hpos
    · intro hinv
      refine coverageInv_of_fields _ (s.advance (pickMax c rest).1) hut hup huc ?_
      exact advance_inv s _ hinv

theorem noiseFuel_inl (f : Nat) : ∀ (s : Lexer) (r : Token × Lexer),
    noiseFuel f s = Sum.inl r →
    r.2.text = s.text ∧ s.pos < r.2.pos ∧ (coverageInv s → coverageInv r.2) := by
  induction f with
  | zero =>
    intro s r h
    exact absurd h (by simp [noiseFuel])
  | succ f ih =>
    intro s r h
    rw [show noiseFuel (f + 1) s =
      (match ((s.skip_ws.1).skip_comments).1 with
       | Sum.inl tok => Sum.inl (tok, ((s.skip_ws.1).skip_comments).2)
       | Sum.inr p2 =>
         if s.skip_ws.2 || p2 || (((s.skip_ws.1).skip_comments).2.skip_pp_line).2 then
           noiseFuel f (((s.skip_ws.1).skip_comments).2.skip_pp_line).1
         else Sum.inr (((s.skip_ws.1).skip_comments).2.skip_pp_line).1) from rfl] at h
    obtain ⟨hwt, hwp, hwi, _, _⟩ := skip_ws_spec s
    obtain ⟨hct, hcp, hci, hcs, _⟩ := skip_comments_spec s.skip_ws.1
    obtain ⟨hpt, hpp, hpi, _, _⟩ := skip_pp_line_spec ((s.skip_ws.1).skip_comments).2
    cases hres : ((s.skip_ws.1).skip_comments).1 with
    | inl tok =>
      rw [hres] at h hcs
      dsimp only at h
      have hr := Sum.inl.inj h
      subst hr
      refine ⟨hct.trans hwt, ?_, fun hv => hci (hwi hv)⟩
      rcases hcs with hbad | hlt
      · exact absurd hbad (by simp)
      · show s.pos < ((s.skip_ws.1).skip_comments).2.pos
        omega
    | inr p2 =>
      rw [hres] at h
      dsimp only at h
      split at h
      · obtain ⟨h1, h2, h3⟩ := ih _ r h
        refine ⟨h1.trans (hpt.trans (hct.trans hwt)), by omega,
          fun hv => h3 (hpi (hci (hwi hv)))⟩
      · exact absurd h (by simp)

theorem noiseFuel_inr (f : Nat) : ∀ (s s' : Lexer),
    noiseFuel f s = Sum.inr s' →
    s'.text = s.text ∧ s.pos ≤ s'.pos ∧ (coverageInv s → coverageInv s') := by
  induction f with
  | zero =>
    intro s s' h
    have hr := Sum.inr.inj h
    subst hr
    exact ⟨rfl, le_refl _, fun hv => hv⟩
  | succ f ih =>
    intro s s' h
    rw [show noiseFuel (f + 1) s =
      (match ((s.skip_ws.1).skip_comments).1 with
       | Sum.inl tok => Sum.inl (tok, ((s.skip_ws.1).skip_comments).2)
       | Sum.inr p2 =>
         if s.skip_ws.2 || p2 || (((s.skip_ws.1).skip_comments).2.skip_pp_line).2 then
           noiseFuel f (((s.skip_ws.1).skip_comments).2.skip_pp_line).1
         else Sum.inr (((s.skip_ws.1).skip_comments).2.skip_pp_line).1) from rfl] at h
    obtain ⟨hwt, hwp, hwi, _, _⟩ := skip_ws_spec s
    obtain ⟨hct, hcp, hci, _, _⟩ := skip_comments_spec s.skip_ws.1
    obtain ⟨hpt, hpp, hpi, _, _⟩ := skip_pp_line_spec ((s.skip_ws.1).skip_comments).2
    cases hres : ((s.skip_ws.1).skip_comments).1 with
    | inl tok =>
      rw [hres] at h
      dsimp only at h
      exact absurd h (by simp)
    | inr p2 =>
      rw [hres] at h
      dsimp only at h
      split at h
      · obtain ⟨h1, h2, h3⟩ := ih _ s' h
        refine ⟨h1.trans (hpt.trans (hct.trans hwt)), by omega,
          fun hv => h3 (hpi (hci (hwi hv)))⟩
      · have hr := Sum.inr.inj h
        subst hr
        exact ⟨hpt.trans (hct.trans hwt), by omega, fun hv => hpi (hci (hwi hv))⟩

theorem skip_ws_eof (s : Lexer) (h : s.text.length ≤ s.pos) : s.skip_ws = (s, false) := by
  unfold Lexer.skip_ws
  have h0 : match_whitespace s.text s.pos = 0 := by
    unfold match_whitespace match_while
    rw [List.drop_eq_nil_of_le h]
    rfl
  dsimp only
  rw [h0]
  simp

theorem skip_comments_eof (s : Lexer) (h : s.text.length ≤ s.pos) :
    s.skip_comments = (Sum.inr false, s) := by
  unfold Lexer.skip_comments
  rw [List.drop_eq_nil_of_le h]
  simp

theorem skip_pp_eof (s : Lexer) (h : s.text.length ≤ s.pos) :
    s.skip_pp_line = (s, false) := by
  unfold Lexer.skip_pp_line
  rw [List.get?_eq_none.mpr h]
  simp

theorem noiseFuel_eof (s : Lexer) (h : s.text.length ≤ s.pos) (f : Nat) :
    noiseFuel (f + 1) s = Sum.inr s := by
  rw [show noiseFuel (f + 1) s =
    (match ((s.skip_ws.1).skip_comments).1 with
     | Sum.inl tok => Sum.inl (tok, ((s.skip_ws.1).skip_comments).2)
     | Sum.inr p2 =>
       if s.skip_ws.2 || p2 || (((s.skip_ws.1).skip_comments).2.skip_pp_line).2 then
         noiseFuel f (((s.skip_ws.1).skip_comments).2.skip_pp_line).1
       else Sum.inr (((s.skip_ws.1).skip_comments).2.skip_pp_line).1) from rfl]
  rw [skip_ws_eof s h]
  dsimp only
  rw [skip_comments_eof s h]
  dsimp only
  rw [skip_pp_eof s h]
  simp

theorem next_token_cases (s : Lexer) :
    s.next_token.2.text = s.text ∧
    (coverageInv s → coverageInv s.next_token.2) ∧
    (s.pos < s.text.length → s.pos < s.next_token.2.pos) := by
  unfold Lexer.next_token
  cases hnf : noiseFuel (s.text.length - s.pos + 1) s with
  | inl r =>
    obtain ⟨h1, h2, h3⟩ := noiseFuel_inl _ s r hnf
    exact ⟨h1, h3, fun _ => h2⟩
  | inr s1 =>
    obtain ⟨h1, h2, h3⟩ := noiseFuel_inr _ s s1 hnf
    dsimp only
    split
    · rename_i hle
      refine ⟨h1, h3, fun hlt => ?_⟩
      rw [h1] at hle
      show s.pos < s1.pos
      omega
    · rename_i hgt
      cases hts : s1.try_string_or_char with
      | some r =>
        obtain ⟨t1, t2, t3⟩ := try_string_spec s1 r hts
        refine ⟨t1.trans h1, fun hv => t3 (h3 hv), fun _ => ?_⟩
        show s.pos < r.2.pos
        omega
      | none =>
        have hlt1 : s1.pos < s1.text.length := by omega
        obtain ⟨c1, c2, c3⟩ := core_spec s1 hlt1
        refine ⟨c1.trans h1, fun hv => c3 (h3 hv), fun _ => ?_⟩
        show s.pos < s1.core.2.pos
        omega

theorem next_token_eof (s : Lexer) (h : s.text.length ≤ s.pos) :
    s.next_token.1.type = TokenType.EOF ∧ s.next_token.2 = s := by
  unfold Lexer.next_token
  have hf : s.text.length - s.pos + 1 = 0 + 1 := by omega
  rw [hf, noiseFuel_eof s h 0]
  dsimp only
  rw [if_pos h]
  exact ⟨rfl, rfl⟩

theorem tokenizeFuel_isSome : ∀ (f : Nat) (s : Lexer), coverageInv s →
    s.text.length - s.pos < f → (tokenizeFuel f s).isSome = true := by
  intro f
  induction f with
  | zero =>
    intro s _ hf
    omega
  | succ f ih =>
    intro s hinv hf
    rw [show tokenizeFuel (f + 1) s =
      (if s.next_token.1.type = TokenType.EOF then some []
       else (tokenizeFuel f s.next_token.2).map (fun ts => s.next_token.1 :: ts)) from rfl]
    split
    · rfl
    · rename_i hne
      obtain ⟨ht, hi, hp⟩ := next_token_cases s
      have hlt : s.pos < s.text.length := by
        by_contra hge
        exact hne (next_token_eof s (by omega)).1
      have hinv2 := hi hinv
      have hfuel : s.next_token.2.text.length - s.next_token.2.pos < f := by
        have hadv := hp hlt
        have hb := hinv2.2
        rw [ht] at hb
        rw [ht]
        omega
      have hsome := ih s.next_token.2 hinv2 hfuel
      cases htf : tokenizeFuel f s.next_token.2 with
      | none => rw [htf] at hsome; simp at hsome
      | some l => simp

/-! ## Block comments: first occurrence of the closing marker -/

theorem findSub2_some (a b : Char) : ∀ (l : List Char) (e : Nat),
    findSub2 a b l = some e →
    l.get? e = some a ∧ l.get? (e + 1) = some b ∧
    ∀ j, j < e → ¬(l.get? j = some a ∧ l.get? (j + 1) = some b) := by
  intro l
  induction l with
  | nil =>
    intro e h
    exact absurd h (by simp [findSub2])
  | cons c rest ih =>
    intro e h
    cases rest with
    | nil => exact absurd h (by simp [findSub2])
    | cons d rest2 =>
      rw [show findSub2 a b (c :: d :: rest2) =
        (if c = a ∧ d = b then some 0
         else (findSub2 a b (d :: rest2)).map (· + 1)) from rfl] at h
      split at h
      · rename_i hcd
        have he : e = 0 := by
          have := Option.some.inj h
          omega
        subst he
        exact ⟨by simp [hcd.1], by simp [hcd.2], fun j hj => by omega⟩
      · rename_i hcd
        cases hf : findSub2 a b (d :: rest2) with
        | none =>
          rw [hf] at h
          exact absurd h (by simp)
        | some e0 =>
          rw [hf] at h
          simp only [Option.map_some', Option.some.injEq] at h
          subst h
          obtain ⟨g1, g2, g3⟩ := ih e0 hf
          refine ⟨by simpa using g1, by simpa using g2, ?_⟩
          intro j hj hpat
          cases j with
          | zero =>
            apply hcd
            refine ⟨?_, ?_⟩
            · have := hpat.1
              simpa using this
            · have := hpat.2
              simpa using this
          | succ j0 =>
            refine g3 j0 (by omega) ⟨?_, ?_⟩
            · have := hpat.1
              simpa using this
            · have := hpat.2
              simpa using this

theorem findSub2_none (a b : Char) : ∀ (l : List Char),
    findSub2 a b l = none →
    ∀ j, ¬(l.get? j = some a ∧ l.get? (j + 1) = some b) := by
  intro l
  induction l with
  | nil =>
    intro _ j hpat
    have := hpat.1
    simp at this
  | cons c rest ih =>
    intro h j hpat
    cases rest with
    | nil =>
      cases j with
      | zero =>
        have := hpat.2
        simp at this
      | succ j0 =>
        have := hpat.1
        simp at this
    | cons d rest2 =>
      rw [show findSub2 a b (c :: d :: rest2) =
        (if c = a ∧ d = b then some 0
         else (findSub2 a b (d :: rest2)).map (· + 1)) from rfl] at h
      split at h
      · exact absurd h (by simp)
      · rename_i hcd
        have hf : findSub2 a b (d :: rest2) = none := by
          cases hf2 : findSub2 a b (d :: rest2) with
          | none => rfl
          | some e0 => rw [hf2] at h; exact absurd h (by simp)
        cases j with
        | zero =>
          apply hcd
          refine ⟨?_, ?_⟩
          · have := hpat.1
            simpa using this
          · have := hpat.2
            simpa using this
        | succ j0 =>
          refine ih hf j0 ⟨?_, ?_⟩
          · have := hpat.1
            simpa using this
          · have := hpat.2
            simpa using this

theorem findSub2_eq_none_iff (a b : Char) (l : List Char) :
    findSub2 a b l = none ↔
      ∀ j, ¬(l.get? j = some a ∧ l.get? (j + 1) = some b) := by
  constructor
  · exact findSub2_none a b l
  · intro h
    cases hf : findSub2 a b l with
    | none => rfl
    | some e =>
      obtain ⟨g1, g2, _⟩ := findSub2_some a b l e hf
      exact absurd ⟨g1, g2⟩ (h e)

theorem head_slash_not_ws (s : Lexer) (rest : List Char)
    (hd : s.text.drop s.pos = '/' :: rest) : s.skip_ws = (s, false) := by
  unfold Lexer.skip_ws
  have h0 : match_whitespace s.text s.pos = 0 := by
    unfold match_whitespace match_while
    rw [hd]
    rfl
  dsimp only
  rw [h0]
  simp

theorem take_two_drop (s : Lexer) (a b : Char)
    (h : (s.text.drop s.pos).take 2 = [a, b]) :
    s.text.drop s.pos = a :: b :: s.text.drop (s.pos + 2) := by
  cases hd : s.text.drop s.pos with
  | nil => rw [hd] at h; exact absurd h (by simp)
  | cons c rest =>
    cases rest with
    | nil => rw [hd] at h; exact absurd h (by simp)
    | cons d rest2 =>
      rw [hd] at h
      simp only [List.take_succ_cons, List.take_zero, List.take_cons_succ] at h
      have h2 : c = a ∧ d = b := by
        have h' := h
        simp at h'
        exact h'
      have hrest : rest2 = s.text.drop (s.pos + 2) := by
        have := congrArg (List.drop 2) hd
        simpa [List.drop_drop, Nat.add_comm] using this.symm
      rw [h2.1, h2.2, hrest]

/-- claim C8's engine step: an unterminated block comment at the cursor makes
next_token return immediately with an ERROR token spanning to end-of-input,
and the cursor lands at end-of-input. -/
theorem next_token_unterminated (s : Lexer)
    (hbc : (s.text.drop s.pos).take 2 = ['/', '*'])
    (hnc : findSub2 '*' '/' (s.text.drop (s.pos + 2)) = none) :
    s.next_token = (⟨TokenType.ERROR, s.text.drop s.pos, s.line, s.col⟩,
      s.advance (s.text.drop s.pos).length) ∧
    (s.advance (s.text.drop s.pos).length).pos = s.text.length := by
  have hd := take_two_drop s '/' '*' hbc
  have hpos : s.pos < s.text.length := by
    have := congrArg List.length hd
    rw [List.length_drop] at this
    simp only [List.length_cons] at this
    omega
  have hws : s.skip_ws = (s, false) := head_slash_not_ws s _ hd
  have hsc : s.skip_comments =
      (Sum.inl (⟨TokenType.ERROR, s.text.drop s.pos, s.line, s.col⟩ : Token),
        s.advance (s.text.drop s.pos).length) := by
    unfold Lexer.skip_comments
    rw [if_pos hbc, hnc]
  constructor
  · unfold Lexer.next_token
    rw [show noiseFuel (s.text.length - s.pos + 1) s =
      (match ((s.skip_ws.1).skip_comments).1 with
       | Sum.inl tok => Sum.inl (tok, ((s.skip_ws.1).skip_comments).2)
       | Sum.inr p2 =>
         if s.skip_ws.2 || p2 || (((s.skip_ws.1).skip_comments).2.skip_pp_line).2 then
           noiseFuel (s.text.length - s.pos) (((s.skip_ws.1).skip_comments).2.skip_pp_line).1
         else Sum.inr (((s.skip_ws.1).skip_comments).2.skip_pp_line).1) from rfl]
    rw [hws]
    dsimp only
    rw [hsc]
  · rw [advance_pos, List.length_drop]
    omega

/-- claim C10's engine step: a block comment with a closing marker is
skipped up to and including the first subsequent closing marker. -/
theorem skip_comments_closed (s : Lexer) (e : Nat)
    (hbc : (s.text.drop s.pos).take 2 = ['/', '*'])
    (hfind : findSub2 '*' '/' (s.text.drop (s.pos + 2)) = some e) :
    s.skip_comments = (Sum.inr true, s.advance (e + 4)) ∧
    (s.advance (e + 4)).consumed =
      s.consumed ++ [(s.text.drop s.pos).take (e + 4)] := by
  constructor
  · unfold Lexer.skip_comments
    rw [if_pos hbc, hfind]
  · exact advance_consumed s (e + 4)

/-! ## Classification-step lemmas -/

theorem classifyKw_keyword (s : Lexer) (lex : List Char) (tt0 : Option TokenType)
    (h : lex ∈ KEYWORDS) : classifyKw s lex tt0 = TokenType.RW := by
  unfold classifyKw
  rw [if_pos h]

theorem declOverride_rw (s : Lexer) : declOverride s TokenType.RW = TokenType.RW := by
  unfold declOverride
  split
  · rw [if_neg (by simp)]
  · rfl

theorem declOverride_spec (s : Lexer) (h1 : s.in_decl = true)
    (h2 : s.decl_is_int36 = true) (h3 : s.expect_ident = false)
    (h4 : s.in_expr_context = true) :
    declOverride s TokenType.NUM10 = TokenType.NUM36 ∧
    declOverride s TokenType.NUM8 = TokenType.NUM36 ∧
    declOverride s TokenType.NUM16 = TokenType.NUM36 ∧
    declOverride s TokenType.FLOAT = TokenType.FLOAT := by
  simp [declOverride, h1, h2, h3, h4]

/-! ## Expression-position characterization and matcher bounds -/

/-- Claim C6: the lexer is in expression position if and only if there is
no prior emitted token, or the prior token is a delimiter among ( , { [ ; ,
or an operator among the nineteen expression operators, or the return
keyword, or the operator = while inside an active declaration. -/
theorem claim_C6 (s : Lexer) :
    s.in_expr_context = true ↔
      (s.prev_token = none ∨
       ∃ t, s.prev_token = some t ∧
         ((t.type = TokenType.DL ∧
             t.lexeme ∈ (["(", ",", "\x7b", "[", ";"].map String.toList)) ∨
          (t.type = TokenType.OP ∧
             t.lexeme ∈ (["=", "+", "-", "*", "/", "%", "&", "|", "^", "==", "!=",
               "<=", ">=", "<", ">", "&&", "||", "?", ":"].map String.toList)) ∨
          (t.type = TokenType.RW ∧ t.lexeme = "return".toList) ∨
          (s.in_decl = true ∧ t.type = TokenType.OP ∧ t.lexeme = "=".toList))) := by
  cases hp : s.prev_token with
  | none =>
    unfold Lexer.in_expr_context
    rw [hp]
    simp
  | some t =>
    unfold Lexer.in_expr_context
    rw [hp]
    dsimp only
    constructor
    · intro h
      right
      refine ⟨t, rfl, ?_⟩
      split_ifs at h with g1 g2 g3 g4
      · exact Or.inl g1
      · exact Or.inr (Or.inl g2)
      · exact Or.inr (Or.inr (Or.inl g3))
      · exact Or.inr (Or.inr (Or.inr g4))
    · intro h
      rcases h with hn | ⟨t', ht', hd⟩
      · exact Option.noConfusion hn
      · obtain rfl := Option.some.inj ht'
        split_ifs with g1 g2 g3 g4
        · rfl
        · rfl
        · rfl
        · rfl
        · rcases hd with h1 | h2 | h3 | h4
          · exact absurd h1 g1
          · exact absurd h2 g2
          · exact absurd h3 g3
          · exact absurd h4 g4

theorem match_base36_bare_le (text : List Char) (pos : Nat) :
    match_base36_bare text pos ≤ text.length - pos := by
  unfold match_base36_bare
  have := matchWhileGo_le is_base36_char (text.drop pos)
  rw [List.length_drop] at this
  dsimp only
  split
  · omega
  · omega

theorem match_string_or_char_le (text : List Char) (pos : Nat) :
    (match_string_or_char text pos).1 ≤ text.length - pos + 1 ∧
    ((match_string_or_char text pos).2.2 = false →
      (match_string_or_char text pos).1 ≤ text.length - pos) := by
  unfold match_string_or_char
  cases hd : text.drop pos with
  | nil => exact ⟨by simp, fun _ => by simp⟩
  | cons q rest =>
    have hlen : rest.length + 1 = text.length - pos := by
      have := congrArg List.length hd
      rw [List.length_drop] at this
      simp only [List.length_cons] at this
      omega
    dsimp only
    split
    · have hle := scanRest_le q rest
      have hcl := scanRest_closed_le q rest
      split
      · rename_i hclosed
        have := hcl hclosed
        exact ⟨by omega, fun _ => by omega⟩
      · refine ⟨by omega, fun hfalse => ?_⟩
        simp at hfalse
    · exact ⟨by omega, fun _ => by omega⟩

/-! ## The claims -/

/-- Claim C1: the invariant that the consumed prefix text[:pos] equals the
concatenation of all spans consumed so far (tokens, skipped whitespace,
comments, preprocessor lines and error lexemes, in consumption order) is
preserved by every call to next_token, with no gaps and no overlaps. -/
theorem claim_C1 (s : Lexer) (h : coverageInv s) : coverageInv s.next_token.2 :=
  (next_token_cases s).2.1 h

theorem claim_C1_witness : coverageInv ((mkLexer ("ab".toList)).next_token.2) :=
  claim_C1 (mkLexer ("ab".toList)) ⟨rfl, by decide⟩

/-- Claim C2, counterexample: for the input abc123 given to a fresh lexer,
tokenize returns one token of category BASE36-NUMBER, not IDENTIFIER as the
claim states (a fresh lexer has no prior token, hence is in expression
position, and the bare base-36 candidate outranks the identifier). -/
theorem claim_C2_counterexample :
    (mkLexer ("abc123".toList)).tokenize =
      some [⟨TokenType.NUM36, "abc123".toList, 1, 1⟩] ∧
    TokenType.NUM36 ≠ TokenType.ID :=
  ⟨rfl, by decide⟩

/-- Claim C2, amended: for the input abc123 given to a fresh lexer, tokenize
returns exactly one token, classified BASE36-NUMBER, with lexeme abc123 of
length 6, not split into shorter pieces. -/
theorem claim_C2 :
    (mkLexer ("abc123".toList)).tokenize =
      some [⟨TokenType.NUM36, "abc123".toList, 1, 1⟩] ∧
    ("abc123".toList).length = 6 :=
  ⟨rfl, rfl⟩

/-- Claim C3, counterexample: match_string_or_char on the two-character text
consisting of a double quote followed by a backslash returns length 3,
consuming past end-of-input (the escape skip advances the scan index by two
past the final backslash). -/
theorem claim_C3_counterexample :
    match_string_or_char ("\"\\".toList) 0 = (3, true, true) ∧
    ("\"\\".toList).length = 2 ∧ ¬(0 + 3 ≤ 2) :=
  ⟨rfl, rfl, by omega⟩

/-- Claim C3, amended: every span matcher except match_string_or_char
returns a length L with startOffset + L within the text; match_string_or_char
can overrun end-of-input by at most one (exactly in the unterminated case
with a trailing backslash escape), and stays within the text whenever the
literal is not reported unterminated. -/
theorem claim_C3 (text : List Char) (pos : Nat) (h : pos ≤ text.length) :
    pos + match_whitespace text pos ≤ text.length ∧
    pos + match_identifier text pos ≤ text.length ∧
    pos + match_float text pos ≤ text.length ∧
    pos + match_hex_int text pos ≤ text.length ∧
    pos + match_oct_int text pos ≤ text.length ∧
    pos + match_dec_int text pos ≤ text.length ∧
    pos + match_base36_bare text pos ≤ text.length ∧
    pos + (match_string_or_char text pos).1 ≤ text.length + 1 ∧
    ((match_string_or_char text pos).2.2 = false →
      pos + (match_string_or_char text pos).1 ≤ text.length) := by
  have hw := matchWhileGo_le isWhitespaceChar (text.drop pos)
  have hi := matchIdentifierGo_le (text.drop pos)
  have hf := matchFloatGo_le (text.drop pos)
  have hx := matchHexGo_le (text.drop pos)
  have ho := matchOctGo_le (text.drop pos)
  have hd := matchDecGo_le (text.drop pos)
  have hb := match_base36_bare_le text pos
  have hs := match_string_or_char_le text pos
  rw [List.length_drop] at hw hi hf hx ho hd
  refine ⟨?_, ?_, ?_, ?_, ?_, ?_, ?_, ?_, ?_⟩
  · show pos + matchWhileGo isWhitespaceChar (text.drop pos) ≤ _
    omega
  · show pos + matchIdentifierGo (text.drop pos) ≤ _
    omega
  · show pos + matchFloatGo (text.drop pos) ≤ _
    omega
  · show pos + matchHexGo (text.drop pos) ≤ _
    omega
  · show pos + matchOctGo (text.drop pos) ≤ _
    omega
  · show pos + matchDecGo (text.drop pos) ≤ _
    omega
  · omega
  · have := hs.1
    omega
  · intro he
    have := hs.2 he
    omega

theorem claim_C3_witness :
    0 + match_whitespace ("a".toList) 0 ≤ ("a".toList).length :=
  (claim_C3 ("a".toList) 0 (by decide)).1

/-- Claim C4: every call to next_token whose cursor is not at end-of-input
advances the cursor by at least one character (ERROR tokens included), and
consequently tokenize terminates (returns within its fuel) on every finite
input. -/
theorem claim_C4 :
    (∀ s : Lexer, s.pos < s.text.length → s.pos < s.next_token.2.pos) ∧
    (∀ text : List Char, ((mkLexer text).tokenize).isSome = true) := by
  constructor
  · intro s h
    exact (next_token_cases s).2.2 h
  · intro text
    unfold Lexer.tokenize
    refine tokenizeFuel_isSome _ (mkLexer text) ⟨rfl, by simp [mkLexer]⟩ ?_
    simp [mkLexer]

theorem claim_C4_witness :
    (mkLexer ("a".toList)).pos < ((mkLexer ("a".toList)).next_token).2.pos ∧
    ((mkLexer ("a".toList)).tokenize).isSome = true :=
  ⟨claim_C4.1 (mkLexer ("a".toList)) (by decide), claim_C4.2 ("a".toList)⟩

/-- Claim C5: inside an active base-36-typed declaration, when not expecting
a declared name and in expression position, the declaration override turns
the plain decimal, octal and hex integer categories into BASE36-NUMBER and
never touches FLOAT; in particular int36 x = 10; classifies 10 as
BASE36-NUMBER while int36 x = 1.5; leaves 1.5 as FLOAT. -/
theorem claim_C5 :
    (∀ s : Lexer, s.in_decl = true → s.decl_is_int36 = true →
      s.expect_ident = false → s.in_expr_context = true →
      declOverride s TokenType.NUM10 = TokenType.NUM36 ∧
      declOverride s TokenType.NUM8 = TokenType.NUM36 ∧
      declOverride s TokenType.NUM16 = TokenType.NUM36 ∧
      declOverride s TokenType.FLOAT = TokenType.FLOAT) ∧
    (mkLexer ("int36 x = 10;".toList)).tokenize =
      some [⟨TokenType.RW, "int36".toList, 1, 1⟩, ⟨TokenType.ID, "x".toList, 1, 7⟩,
            ⟨TokenType.OP, "=".toList, 1, 9⟩, ⟨TokenType.NUM36, "10".toList, 1, 11⟩,
            ⟨TokenType.DL, ";".toList, 1, 13⟩] ∧
    (mkLexer ("int36 x = 1.5;".toList)).tokenize =
      some [⟨TokenType.RW, "int36".toList, 1, 1⟩, ⟨TokenType.ID, "x".toList, 1, 7⟩,
            ⟨TokenType.OP, "=".toList, 1, 9⟩, ⟨TokenType.FLOAT, "1.5".toList, 1, 11⟩,
            ⟨TokenType.DL, ";".toList, 1, 14⟩] :=
  ⟨fun s h1 h2 h3 h4 => declOverride_spec s h1 h2 h3 h4, rfl, rfl⟩

theorem claim_C5_witness :
    declOverride { mkLexer [] with in_decl := true, decl_is_int36 := true }
        TokenType.NUM10 = TokenType.NUM36 ∧
    declOverride { mkLexer [] with in_decl := true, decl_is_int36 := true }
        TokenType.FLOAT = TokenType.FLOAT :=
  ⟨(claim_C5.1 { mkLexer [] with in_decl := true, decl_is_int36 := true }
      rfl rfl rfl rfl).1,
   (claim_C5.1 { mkLexer [] with in_decl := true, decl_is_int36 := true }
      rfl rfl rfl rfl).2.2.2⟩

theorem claim_C6_witness : (mkLexer []).in_expr_context = true :=
  (claim_C6 (mkLexer [])).mpr (Or.inl rfl)

/-- Claim C7, counterexample: with only the lexeme ab stored, the input ax
has a trie edge for its first character a, yet match_longest returns
no-match; so no-match is not equivalent to the absence of an edge for the
first character. -/
theorem claim_C7_counterexample :
    (Trie.emptyTrie.add ("ab".toList) "OP").match_longest ("ax".toList) 0 =
      (none, none) ∧
    ((Trie.emptyTrie.add ("ab".toList) "OP").root.children 'a').isSome = true :=
  ⟨rfl, rfl⟩

/-- Claim C7, amended: for every trie built by add calls, match_longest
returns the longest nonempty stored lexeme that is a prefix of the text at
the offset, together with the tag of its most recent insertion, and returns
no-match exactly when no nonempty stored lexeme is a prefix there; with =
and == stored, input == yields the single match == with tag OP. -/
theorem claim_C7 :
    (∀ (t : Trie) (text : List Char) (pos : Nat) (lex : List Char) (tg : String),
      t.match_longest text pos = (some lex, some tg) →
        lex ≠ [] ∧ lex = (text.drop pos).take lex.length ∧
        tagAt t.root lex = some tg ∧
        ∀ s : List Char, s ≠ [] → (tagAt t.root s).isSome = true →
          s = (text.drop pos).take s.length → s.length ≤ lex.length) ∧
    (∀ (t : Trie) (text : List Char) (pos : Nat),
      t.match_longest text pos = (none, none) ↔
        ∀ s : List Char, s ≠ [] → (tagAt t.root s).isSome = true →
          s ≠ (text.drop pos).take s.length) ∧
    (∀ (adds : List (List Char × String)) (s : List Char),
      tagAt (buildFrom adds).root s =
        adds.foldl (fun acc p => if p.1 = s then some p.2 else acc) none) ∧
    ((Trie.emptyTrie.add ("=".toList) "OP").add ("==".toList) "OP").match_longest
        ("==".toList) 0 = (some ("==".toList), some "OP") := by
  refine ⟨?_, ?_, tagAt_buildFrom, rfl⟩
  · intro t text pos lex tg h
    rw [match_longest_eq] at h
    cases hm : maxTagged t.root (text.drop pos) with
    | none =>
      rw [hm] at h
      exact absurd h (by simp)
    | some p =>
      obtain ⟨j, tg0⟩ := p
      rw [hm] at h
      dsimp only at h
      simp only [Prod.mk.injEq, Option.some.injEq] at h
      obtain ⟨hlex, htg⟩ := h
      subst htg
      obtain ⟨hj1, hj2, h3, h4⟩ := maxTagged_some _ _ _ _ hm
      have hlen : lex.length = j := by
        rw [← hlex, List.length_take]
        omega
      have hpref : lex = (text.drop pos).take lex.length := by
        rw [hlen]
        exact hlex.symm
      refine ⟨?_, hpref, ?_, ?_⟩
      · intro hnil
        rw [hnil] at hlen
        simp at hlen
        omega
      · rw [hlex] at h3
        exact h3
      · intro s hne hsome hspref
        have hslen : s.length ≤ (text.drop pos).length := by
          have := congrArg List.length hspref
          rw [List.length_take] at this
          omega
        by_contra hgt
        push_neg at hgt
        have hnone := h4 s.length (by omega) hslen
        rw [← hspref] at hnone
        rw [hnone] at hsome
        simp at hsome
  · intro t text pos
    rw [match_longest_eq]
    cases hm : maxTagged t.root (text.drop pos) with
    | none =>
      dsimp only
      constructor
      · intro _ s hne hsome hspref
        have hslen : s.length ≤ (text.drop pos).length := by
          have := congrArg List.length hspref
          rw [List.length_take] at this
          omega
        have hs1 : 1 ≤ s.length := by
          cases s with
          | nil => exact absurd rfl hne
          | cons a l => simp
        have hnone := maxTagged_none _ _ hm s.length hs1 hslen
        rw [← hspref] at hnone
        rw [hnone] at hsome
        simp at hsome
      · intro _
        rfl
    | some p =>
      obtain ⟨j, tg0⟩ := p
      dsimp only
      constructor
      · intro hcontra
        exact absurd hcontra (by simp)
      · intro hall
        exfalso
        obtain ⟨hj1, hj2, h3, _⟩ := maxTagged_some _ _ _ _ hm
        have hlen : ((text.drop pos).take j).length = j := by
          rw [List.length_take]
          omega
        have heq : (text.drop pos).take j =
            (text.drop pos).take (((text.drop pos).take j).length) := by
          rw [hlen]
        refine hall ((text.drop pos).take j) ?_ ?_ heq
        · intro hnil
          rw [hnil] at hlen
          simp at hlen
          omega
        · rw [h3]
          rfl

theorem claim_C7_witness :
    tagAt ((Trie.emptyTrie.add ("=".toList) "OP").add ("==".toList) "OP").root
      ("==".toList) = some "OP" :=
  (claim_C7.1 ((Trie.emptyTrie.add ("=".toList) "OP").add ("==".toList) "OP")
    ("==".toList) 0 ("==".toList) "OP" rfl).2.2.1

/-- Claim C8: when a block comment opener with no subsequent closing marker
is at the cursor, next_token immediately returns a single ERROR token whose
lexeme is the entire remaining text, leaving the cursor at end-of-input;
any call at end-of-input yields EOF, so no further non-EOF tokens follow;
in particular the whole input consisting only of an unterminated comment
yields exactly one ERROR token. -/
theorem claim_C8 :
    (∀ s : Lexer, (s.text.drop s.pos).take 2 = ['/', '*'] →
      (∀ j, ¬((s.text.drop (s.pos + 2)).get? j = some '*' ∧
              (s.text.drop (s.pos + 2)).get? (j + 1) = some '/')) →
      s.next_token = (⟨TokenType.ERROR, s.text.drop s.pos, s.line, s.col⟩,
        s.advance (s.text.drop s.pos).length) ∧
      (s.advance (s.text.drop s.pos).length).pos = s.text.length) ∧
    (∀ s : Lexer, s.text.length ≤ s.pos → s.next_token.1.type = TokenType.EOF) ∧
    (mkLexer ("/* never closes".toList)).tokenize =
      some [⟨TokenType.ERROR, "/* never closes".toList, 1, 1⟩] := by
  refine ⟨?_, ?_, rfl⟩
  · intro s hbc hnone
    exact next_token_unterminated s hbc ((findSub2_eq_none_iff _ _ _).mpr hnone)
  · intro s h
    exact (next_token_eof s h).1

theorem claim_C8_witness :
    (mkLexer ("/*".toList)).next_token =
      (⟨TokenType.ERROR, "/*".toList, 1, 1⟩, (mkLexer ("/*".toList)).advance 2) ∧
    ((mkLexer ("/*".toList)).advance 2).pos = 2 :=
  claim_C8.1 (mkLexer ("/*".toList)) (by rfl)
    (fun j hpat => by
      have h0 : (mkLexer ("/*".toList)).text.drop ((mkLexer ("/*".toList)).pos + 2) =
          [] := rfl
      rw [h0] at hpat
      exact Option.noConfusion hpat.1)

/-- Claim C9: a selected lexeme that is exactly a keyword is always emitted
as KEYWORD, regardless of which matcher produced the winning candidate, and
the base-36 reclassification steps never change it; in particular the
base-36-shaped keyword int36 and the keyword return lex as KEYWORD. -/
theorem claim_C9 :
    (∀ (s : Lexer) (lex : List Char) (tt0 : Option TokenType), lex ∈ KEYWORDS →
      declOverride s (classifyKw s lex tt0) = TokenType.RW) ∧
    (mkLexer ("int36".toList)).tokenize =
      some [⟨TokenType.RW, "int36".toList, 1, 1⟩] ∧
    (mkLexer ("return".toList)).tokenize =
      some [⟨TokenType.RW, "return".toList, 1, 1⟩] := by
  refine ⟨?_, rfl, rfl⟩
  intro s lex tt0 h
  rw [classifyKw_keyword s lex tt0 h, declOverride_rw]

theorem claim_C9_witness :
    declOverride (mkLexer []) (classifyKw (mkLexer []) ("return".toList) none) =
      TokenType.RW :=
  claim_C9.1 (mkLexer []) ("return".toList) none (by decide)

/-- Claim C10: block comments do not nest: a block comment at the cursor is
skipped up to and including the first subsequent closing marker (whose
firstness the findSub2 index witnesses), regardless of intervening openers;
in the example the skipped span is the eight characters up to the first
closing marker and scanning resumes at the following text. -/
theorem claim_C10 :
    (∀ (s : Lexer) (e : Nat), (s.text.drop s.pos).take 2 = ['/', '*'] →
      findSub2 '*' '/' (s.text.drop (s.pos + 2)) = some e →
      s.skip_comments = (Sum.inr true, s.advance (e + 4)) ∧
      (s.advance (e + 4)).consumed =
        s.consumed ++ [(s.text.drop s.pos).take (e + 4)] ∧
      (s.text.drop (s.pos + 2)).get? e = some '*' ∧
      (s.text.drop (s.pos + 2)).get? (e + 1) = some '/' ∧
      ∀ j, j < e → ¬((s.text.drop (s.pos + 2)).get? j = some '*' ∧
                     (s.text.drop (s.pos + 2)).get? (j + 1) = some '/')) ∧
    (mkLexer ("/* /* */ x".toList)).skip_comments =
      (Sum.inr true, (mkLexer ("/* /* */ x".toList)).advance 8) ∧
    ((mkLexer ("/* /* */ x".toList)).advance 8).consumed = ["/* /* */".toList] ∧
    (mkLexer ("/* /* */ x".toList)).tokenize =
      some [⟨TokenType.ID, "x".toList, 1, 10⟩] := by
  refine ⟨?_, rfl, rfl, rfl⟩
  intro s e hbc hf
  obtain ⟨g1, g2⟩ := skip_comments_closed s e hbc hf
  obtain ⟨p1, p2, p3⟩ := findSub2_some _ _ _ e hf
  exact ⟨g1, g2, p1, p2, p3⟩

theorem claim_C10_witness :
    ((mkLexer ("/* /* */ x".toList)).text.drop (0 + 2)).get? 4 = some '*' :=
  (claim_C10.1 (mkLexer ("/* /* */ x".toList)) 4 (by rfl) (by rfl)).2.2.1

end LexerC
